import Mathlib

/-!
Verification development for the listAlchemy `permute` tool
(go-utils/permute/permute.go and go-utils/perms/perms.go).

The development embeds, as executable Lean functions:
  * the loaded token pool and configuration (`PermCfg`),
  * the concurrent engine `PermutatorFast.dfs` / `PermutatorFast.Generate`
    (`PermCfg.dfs`, `PermCfg.GenerateLines`),
  * the sequential engine `permutator.dfs` / `permutator.generate`
    (`PermCfg.seqDfs`, `PermCfg.seqGenerateLines`),
  * the counter `CalculateOutputLines` (`calcOutputLines` over a loaded pool,
    `CalculateOutputLines` including the loading loop),
  * the source-loading loop shared by the engine and the counter (`loadPool`),
  * the command-line layer (`sourceArgSet`, `mainRun`),
  * the mutex-guarded output sink as a small-step transition system
    (`SinkState`, `SinkStep`, `SinkReach`).
-/

namespace ListAlchemy

/-- Loaded pool plus run configuration of the permutator.  `allItems` is the
combined token pool (PermutatorFast.allItems), `srcOfItem i` the index of the
source owning token `i`, `srcDepths s` the depth of source `s`, `seps` the
separator list, `pfx`/`sfx` the prefix/suffix strings, and `noRepeats` the
no-repeat flag. -/
structure PermCfg where
  allItems : List String
  srcOfItem : List Nat
  srcDepths : List Nat
  seps : List String
  pfx : String
  sfx : String
  noRepeats : Bool

/-- Maximum sequence depth for start token `i`: `srcDepths[srcOfItem[i]]`,
exactly as computed in PermutatorFast.Generate. -/
def PermCfg.maxDepthOf (p : PermCfg) (i : Nat) : Nat :=
  p.srcDepths.getD (p.srcOfItem.getD i 0) 0

/-- Shape invariants that hold for every pool produced by the loading loop and
the validated command line: one source record per token, source indices in
range, and every depth at least 1 (sourceArgs.Set rejects smaller depths). -/
def PermCfg.WF (p : PermCfg) : Prop :=
  p.srcOfItem.length = p.allItems.length ∧
  (∀ s ∈ p.srcOfItem, s < p.srcDepths.length) ∧
  (∀ d ∈ p.srcDepths, 1 ≤ d)

instance (p : PermCfg) : Decidable p.WF :=
  inferInstanceAs (Decidable (p.srcOfItem.length = p.allItems.length ∧
    (∀ s ∈ p.srcOfItem, s < p.srcDepths.length) ∧ (∀ d ∈ p.srcDepths, 1 ≤ d)))

/-- Emission string built inside PermutatorFast.dfs for one sequence and one
separator: the prefix, the first token, then separator-plus-token for every
later position, then the suffix.  Out-of-range indices (which cannot occur in
a run) read as the empty token. -/
def buildLine (p : PermCfg) (sep : String) (path : List Nat) : String :=
  match path with
  | [] => p.pfx ++ p.sfx
  | first :: rest =>
    (rest.foldl (fun b i => b ++ sep ++ p.allItems.getD i "")
      (p.pfx ++ p.allItems.getD first "")) ++ p.sfx

/-- Emission string built inside the sequential permutator.dfs: the same loop
written with an index test (`if j > 0` write the separator first). -/
def seqBuildLine (p : PermCfg) (sep : String) (path : List Nat) : String :=
  (path.enum.foldl
    (fun b ji => (if 0 < ji.1 then b ++ sep else b) ++ p.allItems.getD ji.2 "")
    p.pfx) ++ p.sfx

/-- Depth-first traversal of PermutatorFast.dfs, collecting the emitted lines
of one task in emission order.  In Go, `path` is a fixed array of which only
the first `depth` entries are ever read; here `path` is the list of those
entries and appending models `path[depth] = next`.  The mutable `used` array is
threaded functionally: Go marks `used[last]` on entry and unmarks it on exit,
so the marked array seen by the children is `used.set last true` and the caller
observes the array unchanged.  `fuel` is a structural termination counter; the
function is invoked with `fuel = maxDepth - depth`, and the Go recursion stops
exactly when `depth = maxDepth`, so the counter never runs out first. -/
def PermCfg.dfs (p : PermCfg) (maxDepth : Nat) : Nat → List Nat → List Bool → List String
  | fuel, path, used =>
    let used' := if p.noRepeats then used.set (path.getLastD 0) true else used
    let here := if 1 ≤ path.length then p.seps.map (fun sep => buildLine p sep path) else []
    if path.length = maxDepth then here
    else
      match fuel with
      | 0 => here
      | fuel' + 1 =>
        here ++ (List.range p.allItems.length).flatMap (fun next =>
          if p.noRepeats && used'.getD next false then []
          else p.dfs maxDepth fuel' (path ++ [next]) used')

/-- Lines of the traversal task PermutatorFast.Generate spawns for one start
index: depth bound taken from the start token's source, fresh used array. -/
def PermCfg.taskLines (p : PermCfg) (start : Nat) : List String :=
  p.dfs (p.maxDepthOf start) (p.maxDepthOf start - 1) [start]
    (List.replicate p.allItems.length false)

/-- Lines produced by PermutatorFast.Generate.  Go runs one goroutine per start
index, so the cross-task interleaving of lines on the shared sink is scheduler
dependent; every interleaving carries the same multiset of lines as this
canonical concatenation of the tasks in pool order. -/
def PermCfg.GenerateLines (p : PermCfg) : List String :=
  (List.range p.allItems.length).flatMap p.taskLines

/-- Depth-first traversal of the sequential permutator.dfs.  It differs from
the fast variant only in the line builder and in the emission guard
`depth >= 1 && depth <= maxDepth`. -/
def PermCfg.seqDfs (p : PermCfg) (maxDepth : Nat) : Nat → List Nat → List Bool → List String
  | fuel, path, used =>
    let used' := if p.noRepeats then used.set (path.getLastD 0) true else used
    let here :=
      if 1 ≤ path.length ∧ path.length ≤ maxDepth then
        p.seps.map (fun sep => seqBuildLine p sep path)
      else []
    if path.length = maxDepth then here
    else
      match fuel with
      | 0 => here
      | fuel' + 1 =>
        here ++ (List.range p.allItems.length).flatMap (fun next =>
          if p.noRepeats && used'.getD next false then []
          else p.seqDfs maxDepth fuel' (path ++ [next]) used')

/-- Lines contributed by one start index in permutator.generate. -/
def PermCfg.seqTaskLines (p : PermCfg) (start : Nat) : List String :=
  p.seqDfs (p.maxDepthOf start) (p.maxDepthOf start - 1) [start]
    (List.replicate p.allItems.length false)

/-- Lines produced by the sequential permutator.generate, in output order.  The
single shared `used` array is fully restored by every dfs call (mark on entry,
unmark on exit), so it is all-false again before each start index and a fresh
array per start is observationally identical. -/
def PermCfg.seqGenerateLines (p : PermCfg) : List String :=
  (List.range p.allItems.length).flatMap p.seqTaskLines

/-- Pure model of the traversal's sequence enumeration: from node `path`, the
node's own sequence followed by the sequences of every child obtained by
appending one pool index, children visited in pool order, indices already on
the path skipped under no-repeat.  This is dfs with the used array replaced by
membership in `path`, which the array tracks exactly. -/
def enumPaths (n : Nat) (nr : Bool) : Nat → List Nat → List (List Nat)
  | 0, path => [path]
  | fuel + 1, path =>
    path :: (List.range n).flatMap (fun next =>
      if nr && decide (next ∈ path) then [] else enumPaths n nr fuel (path ++ [next]))

/-- Sequences enumerated by the traversal task for one start index. -/
def PermCfg.taskPaths (p : PermCfg) (start : Nat) : List (List Nat) :=
  enumPaths p.allItems.length p.noRepeats (p.maxDepthOf start - 1) [start]

/-- Helper `perm` of CalculateOutputLines: the number of ordered selections of
`r` out of `n` without repetition, over big.Int (modelled as unbounded Int). -/
def permBig (n r : Int) : Int :=
  if r < 0 ∨ n < 0 ∨ n < r then 0
  else (List.range r.toNat).foldl (fun (res : Int) (i : Nat) => res * (n - (i : Int))) 1

/-- Helper `pow` of CalculateOutputLines: `base ^ ex` over big.Int. -/
def powBig (base ex : Int) : Int :=
  if ex < 0 ∨ base < 0 then 0
  else (List.range ex.toNat).foldl (fun (res : Int) (_ : Nat) => res * base) 1

/-- Arithmetic core of CalculateOutputLines over an already-loaded pool: for
every start index and every length `l` from 1 to that token's depth, add
`perm (n-1) (l-1)` (no-repeat) or `pow (n-1) (l-1)` (with repeats), times the
number of separators; 0 outright when the pool or the separator list is empty.
The loop variable below runs over `0 .. maxDepth-1` and stands for `l - 1`. -/
def calcOutputLines (allItems : List String) (srcOfItem srcDepths : List Nat)
    (seps : List String) (noRepeats : Bool) : Int :=
  let n := allItems.length
  if n = 0 ∨ seps.length = 0 then 0
  else
    let sepFactor : Int := seps.length
    (List.range n).foldl (fun (total : Int) (i : Nat) =>
      let maxDepth := srcDepths.getD (srcOfItem.getD i 0) 0
      (List.range maxDepth).foldl (fun (tot : Int) (l : Nat) =>
        let cnt := if noRepeats then permBig ((n : Int) - 1) (l : Int)
                   else powBig ((n : Int) - 1) (l : Int)
        tot + cnt * sepFactor) total) 0

/-- Model of the file system seen through the patch point `osOpen` plus the
line scanner: each known path maps to its list of scanned lines. -/
abbrev FileSys := List (String × List String)

/-- Lines of one source file, or none when opening fails. -/
def readLines (fs : FileSys) (path : String) : Option (List String) :=
  fs.lookup path

/-- Loaded pool: the three parallel arrays built by the loading loop. -/
structure Pool where
  allItems : List String
  srcOfItem : List Nat
  srcDepths : List Nat
deriving DecidableEq

/-- Loading loop shared verbatim by RunPermutatorFast and CalculateOutputLines:
for each source in order, append its non-empty lines to the pool (recording the
source index, which equals the number of depths recorded so far) and append its
depth; fail with the opening error on the first unreadable file. -/
def loadPool (fs : FileSys) (sources : List (String × Nat)) : Except String Pool :=
  sources.foldl (fun acc src =>
    match acc with
    | .error e => .error e
    | .ok pool =>
      match readLines fs src.1 with
      | none => .error ("ERROR opening " ++ src.1)
      | some lines =>
        let kept := lines.filter (fun l => l ≠ "")
        .ok ⟨pool.allItems ++ kept,
             pool.srcOfItem ++ List.replicate kept.length pool.srcDepths.length,
             pool.srcDepths ++ [src.2]⟩) (.ok ⟨[], [], []⟩)

/-- RunPermutatorFast with `output = nil`: load all sources, then run the fast
engine; an unreadable file aborts before any generation. -/
def RunPermutatorFastLines (fs : FileSys) (sources : List (String × Nat))
    (seps : List String) (pfx sfx : String) (noRepeats : Bool) :
    Except String (List String) :=
  match loadPool fs sources with
  | .error e => .error e
  | .ok pool =>
    .ok (PermCfg.GenerateLines
      ⟨pool.allItems, pool.srcOfItem, pool.srcDepths, seps, pfx, sfx, noRepeats⟩)

/-- CalculateOutputLines of permute.go: the same loading loop followed by the
closed-form count. -/
def CalculateOutputLines (fs : FileSys) (sources : List (String × Nat))
    (seps : List String) (noRepeats : Bool) : Except String Int :=
  match loadPool fs sources with
  | .error e => .error e
  | .ok pool => .ok (calcOutputLines pool.allItems pool.srcOfItem pool.srcDepths seps noRepeats)

/-- Characters before the first colon and after it, or none when absent. -/
def splitFirstColon : List Char → Option (List Char × List Char)
  | [] => none
  | c :: rest =>
    if c = ':' then some ([], rest)
    else (splitFirstColon rest).map (fun pr => (c :: pr.1, pr.2))

/-- Go's strings.SplitN(val, ":", 2): the part before the first colon and the
remainder, or the whole string alone when it has no colon. -/
def splitN2Colon (val : String) : List String :=
  match splitFirstColon val.data with
  | none => [val]
  | some (a, b) => [String.mk a, String.mk b]

/-- Digit-string value, or none when empty or holding a non-digit. -/
def digitsToNat (ds : List Char) : Option Nat :=
  if ds = [] ∨ ¬ ds.all (fun c => c.isDigit) then none
  else some (ds.foldl (fun acc c => acc * 10 + (c.toNat - 48)) 0)

/-- Go's strconv.Atoi on the depth field: an optional sign followed by digits.
The int64 range check is not modelled; the depths appearing in a run are far
below it. -/
def atoi (s : String) : Option Int :=
  match s.data with
  | '+' :: rest => (digitsToNat rest).map (fun v => (v : Int))
  | '-' :: rest => (digitsToNat rest).map (fun v => -(v : Int))
  | ds => (digitsToNat ds).map (fun v => (v : Int))

/-- sourceArgs.Set: parse one `path:depth` specification, rejecting a missing
colon, a non-numeric depth, and a depth below 1. -/
def sourceArgSet (val : String) : Except String (String × Int) :=
  let parts := splitN2Colon val
  if parts.length = 2 then
    match atoi (parts.getD 1 "") with
    | none => .error "invalid depth in source"
    | some depth =>
      if depth < 1 then .error "invalid depth in source"
      else .ok (parts.getD 0 "", depth)
  else .error "source must be in format file:depth"

/-- Repeated `-source` flags are fed to Set one at a time; the first failure
aborts parsing. -/
def parseSourceSpecs (raw : List String) : Except String (List (String × Int)) :=
  raw.foldl (fun acc val =>
    match acc with
    | .error e => .error e
    | .ok srcs =>
      match sourceArgSet val with
      | .error e => .error e
      | .ok sa => .ok (srcs ++ [sa])) (.ok [])

/-- Observable outcome of one process run: the exit code, the produced output
lines (emissions, or the single count line), whether the usage text was
printed, and the standard-error lines. -/
structure CliOutcome where
  exitCode : Nat
  stdoutLines : List String
  usagePrinted : Bool
  stderrLines : List String
deriving DecidableEq

/-- Model of main: parse the repeated `-source` values, honour `-help`, require
at least one source, default the separator list to the single empty string,
then either count or generate.  Modelled from the spec: the flag-parsing
machinery that invokes sourceArgs.Set lives in the Go standard library, outside
this repository's sources; per the spec a configuration error detected there
aborts the run with exit code 1, a message on standard error and no output. -/
def mainRun (fs : FileSys) (rawSources rawSeps : List String) (pfx sfx : String)
    (noRepeats countOnly showHelp : Bool) : CliOutcome :=
  match parseSourceSpecs rawSources with
  | .error e => ⟨1, [], false, [e]⟩
  | .ok sources0 =>
    if showHelp then ⟨0, [], true, []⟩
    else if sources0.length = 0 then
      ⟨1, [], true, ["ERROR: at least one -source must be provided"]⟩
    else
      let seps := if rawSeps.length = 0 then [""] else rawSeps
      let sources := sources0.map (fun sa => (sa.1, sa.2.toNat))
      if countOnly then
        match CalculateOutputLines fs sources seps noRepeats with
        | .error e => ⟨1, [], false, [e]⟩
        | .ok total => ⟨0, [toString total], false, []⟩
      else
        match RunPermutatorFastLines fs sources seps pfx sfx noRepeats with
        | .error e => ⟨1, [], false, [e]⟩
        | .ok lines => ⟨0, lines, false, []⟩

/-- Strict depth-first pre-order on index sequences: a proper initial segment
comes before its extensions, and otherwise the first differing position
decides, smaller pool index first.  The traversal visits sequences in strictly
increasing PathLt order. -/
inductive PathLt : List Nat → List Nat → Prop
  | nil (b : Nat) (t : List Nat) : PathLt [] (b :: t)
  | head (a b : Nat) (t1 t2 : List Nat) : a < b → PathLt (a :: t1) (b :: t2)
  | tail (a : Nat) (t1 t2 : List Nat) : PathLt t1 t2 → PathLt (a :: t1) (a :: t2)

/-- State of the Output Sink shared by the concurrent traversal tasks:
`pending` holds each task's remaining emissions in its own order, `writing`
records the goroutine currently inside writeLine's critical section together
with the emission text it has already written (but not yet terminated), and
`out` is the byte stream written so far. -/
structure SinkState where
  pending : List (List String)
  writing : Option (Nat × String)
  out : String
deriving DecidableEq

/-- Initial sink state: every task still has all its emissions, nobody holds
the writer mutex, nothing written. -/
def initSink (tasks : List (List String)) : SinkState :=
  ⟨tasks, none, ""⟩

/-- Atomic steps of writeLine under the mutex.  Acquiring the lock and the
WriteString call form one step — no other goroutine can touch the writer in
between, because every writer access is lock-guarded — and the WriteByte of the
newline terminator plus the unlock form the second step.  A task can start a
line only when no goroutine holds the lock, and only the lock holder can
finish its line. -/
inductive SinkStep : SinkState → SinkState → Prop
  | start (σ : SinkState) (i : Nat) (s : String) (rest : List String) :
      σ.writing = none → σ.pending.getD i [] = s :: rest →
      SinkStep σ ⟨σ.pending, some (i, s), σ.out ++ s⟩
  | finish (σ : SinkState) (i : Nat) (s : String) (rest : List String) :
      σ.writing = some (i, s) → σ.pending.getD i [] = s :: rest →
      SinkStep σ ⟨σ.pending.set i rest, none, σ.out ++ "\n"⟩

/-- Reachable sink states for a given assignment of emissions to tasks, under
an arbitrary scheduler. -/
inductive SinkReach (tasks : List (List String)) : SinkState → Prop
  | init : SinkReach tasks (initSink tasks)
  | step (σ σ' : SinkState) : SinkReach tasks σ → SinkStep σ σ' → SinkReach tasks σ'

/-- Byte stream obtained by appending the given emissions, each followed by
one line terminator, in order. -/
def linesOut (order : List String) : String :=
  order.foldl (fun acc s => acc ++ s ++ "\n") ""

/-- Scenario A of the spec as a loaded configuration: sources
`{["x","y"], depth 2}` and `{["z"], depth 1}`, separator `"-"`, no-repeat on. -/
def cfgScenarioA : PermCfg :=
  ⟨["x", "y", "z"], [0, 0, 1], [2, 1], ["-"], "", "", true⟩

/-! Basic list helpers used throughout the development. -/

lemma flatMap_congr {α β : Type} {l : List α} {f g : α → List β}
    (h : ∀ x ∈ l, f x = g x) : l.flatMap f = l.flatMap g := by
  induction l with
  | nil => rfl
  | cons a t ih =>
    simp only [List.flatMap_cons]
    rw [h a (by simp), ih (fun x hx => h x (by simp [hx]))]

lemma getD_set_self (l : List Bool) (i : Nat) (h : i < l.length) :
    (l.set i true).getD i false = true := by
  simp [List.getD_eq_getElem?_getD, List.getElem?_set_self, h]

lemma getD_set_other (l : List Bool) (i j : Nat) (h : i ≠ j) :
    (l.set i true).getD j false = l.getD j false := by
  simp [List.getD_eq_getElem?_getD, List.getElem?_set_ne h]

lemma getD_mem {l : List Nat} {n : Nat} (h : n < l.length) (d : Nat) : l.getD n d ∈ l := by
  simp [List.getD_eq_getElem?_getD, List.getElem?_eq_getElem h]

/-- Go's backtracking array, after marking the last path entry, records exactly
membership in the whole path: on entry it recorded membership in
`path.dropLast`, and `used[last] = true` adds the last entry. -/
lemma marks_after_set {n : Nat} {path : List Nat} {used : List Bool}
    (hne : path ≠ []) (hlt : ∀ j ∈ path, j < n) (hlen : used.length = n)
    (hm : ∀ j, used.getD j false = decide (j ∈ path.dropLast)) :
    ∀ j, (used.set (path.getLastD 0) true).getD j false = decide (j ∈ path) := by
  intro j
  have hlast : path.getLastD 0 = path.getLast hne := by
    cases path with
    | nil => exact absurd rfl hne
    | cons a t => simp [List.getLastD_eq_getLast?, List.getLast?_eq_getLast]
  have hmem : path.getLast hne ∈ path := List.getLast_mem hne
  have hdec : path.dropLast ++ [path.getLast hne] = path := List.dropLast_append_getLast hne
  rcases Decidable.em (path.getLastD 0 = j) with heq | hne2
  · subst heq
    rw [getD_set_self]
    · have hj : path.getLastD 0 ∈ path := by rw [hlast]; exact hmem
      exact (decide_eq_true hj).symm
    · rw [hlast, hlen]; exact hlt _ hmem
  · rw [getD_set_other _ _ _ hne2, hm j]
    have hiff : (j ∈ path) ↔ (j ∈ path.dropLast) := by
      constructor
      · intro hj
        rw [← hdec] at hj
        rcases List.mem_append.mp hj with hj1 | hj2
        · exact hj1
        · exfalso
          apply hne2
          have hj3 : j = path.getLast hne := by simpa using hj2
          rw [hlast, hj3]
      · intro hj
        rw [← hdec]
        exact List.mem_append_left _ hj
    simp only [hiff]

/-- Master bridge between the Go traversal (with its mutable used array) and
the pure enumeration model: on every node reachable from Generate's top-level
call, dfs emits one line per separator for each sequence that `enumPaths`
yields from that node, in the same order.  The hypotheses are the data-layout
invariants Generate establishes: a non-empty path of in-range indices, a
used array of pool size recording membership in `path.dropLast`, and a fuel
counter equal to the remaining depth budget. -/
lemma dfs_eq_enumPaths (p : PermCfg) (m : Nat) :
    ∀ (fuel : Nat) (path : List Nat) (used : List Bool),
      path ≠ [] →
      (∀ j ∈ path, j < p.allItems.length) →
      used.length = p.allItems.length →
      (p.noRepeats = true → path.Nodup ∧
        ∀ j, used.getD j false = decide (j ∈ path.dropLast)) →
      path.length + fuel = m →
      p.dfs m fuel path used =
        (enumPaths p.allItems.length p.noRepeats fuel path).flatMap
          (fun q => p.seps.map (fun sep => buildLine p sep q)) := by
  intro fuel
  induction fuel with
  | zero =>
    intro path used hne hlt hlen hmarks hfuel
    have h1 : 1 ≤ path.length := List.length_pos.mpr hne
    have h2 : path.length = m := by omega
    simp only [PermCfg.dfs, enumPaths]
    rw [if_pos h2, if_pos h1]
    simp
  | succ fuel ih =>
    intro path used hne hlt hlen hmarks hfuel
    have hne' : ¬ (path.length = m) := by omega
    have h1 : 1 ≤ path.length := List.length_pos.mpr hne
    simp only [PermCfg.dfs, enumPaths]
    rw [if_neg hne', if_pos h1, List.flatMap_cons, List.flatMap_assoc]
    congr 1
    apply flatMap_congr
    intro next hnext
    have hnextn : next < p.allItems.length := List.mem_range.mp hnext
    have hulen : (if p.noRepeats then used.set (path.getLastD 0) true else used).length
        = p.allItems.length := by
      split <;> simp [hlen]
    have hskip : (p.noRepeats &&
        (if p.noRepeats then used.set (path.getLastD 0) true else used).getD next false)
        = (p.noRepeats && decide (next ∈ path)) := by
      by_cases hnr : p.noRepeats = true
      · obtain ⟨hnd, hm⟩ := hmarks hnr
        rw [if_pos hnr, hnr, Bool.true_and, Bool.true_and]
        exact marks_after_set hne hlt hlen hm next
      · rw [Bool.not_eq_true] at hnr
        rw [hnr, Bool.false_and, Bool.false_and]
    rw [hskip]
    cases hb : (p.noRepeats && decide (next ∈ path)) with
    | true => simp [hb]
    | false =>
      rw [if_neg Bool.false_ne_true, if_neg Bool.false_ne_true]
      apply ih
      · simp
      · intro j hj
        rcases List.mem_append.mp hj with hj1 | hj2
        · exact hlt j hj1
        · have hj3 : j = next := by simpa using hj2
          rw [hj3]; exact hnextn
      · exact hulen
      · intro hnr
        obtain ⟨hnd, hm⟩ := hmarks hnr
        have hnotmem : next ∉ path := by
          rw [hnr, Bool.true_and] at hb
          exact of_decide_eq_false hb
        constructor
        · rw [List.nodup_append]
          exact ⟨hnd, List.nodup_singleton next, by
            intro a ha hb2
            simp only [List.mem_singleton] at hb2
            exact hnotmem (hb2 ▸ ha)⟩
        · intro j
          rw [List.dropLast_concat, if_pos hnr]
          exact marks_after_set hne hlt hlen hm j
      · simp; omega

/-- Depths are at least 1 for every start index, in any well-formed
configuration. -/
lemma maxDepthOf_pos {p : PermCfg} (hwf : p.WF) {start : Nat}
    (hs : start < p.allItems.length) : 1 ≤ p.maxDepthOf start := by
  obtain ⟨hlen, hsrc, hdep⟩ := hwf
  have h1 : start < p.srcOfItem.length := by rw [hlen]; exact hs
  have h2 : p.srcOfItem.getD start 0 ∈ p.srcOfItem := getD_mem h1 0
  have h3 : p.srcOfItem.getD start 0 < p.srcDepths.length := hsrc _ h2
  exact hdep _ (getD_mem h3 0)

/-- One traversal task's lines are exactly one line per separator for each of
the task's enumerated sequences, blocks in enumeration order. -/
lemma taskLines_eq_taskPaths {p : PermCfg} (hwf : p.WF) {start : Nat}
    (hs : start < p.allItems.length) :
    p.taskLines start =
      (p.taskPaths start).flatMap (fun q => p.seps.map (fun sep => buildLine p sep q)) := by
  have hm : 1 ≤ p.maxDepthOf start := maxDepthOf_pos hwf hs
  unfold PermCfg.taskLines PermCfg.taskPaths
  apply dfs_eq_enumPaths
  · simp
  · intro j hj
    have hj2 : j = start := by simpa using hj
    rw [hj2]; exact hs
  · simp
  · intro _
    refine ⟨List.nodup_singleton start, ?_⟩
    intro j
    simp [List.getD_eq_getElem?_getD, List.getElem?_replicate]
    split <;> simp
  · simp; omega

/-- Every sequence enumerated from a node extends that node's path. -/
lemma shape_enumPaths (n : Nat) (nr : Bool) :
    ∀ (fuel : Nat) (path q : List Nat),
      q ∈ enumPaths n nr fuel path → ∃ t, q = path ++ t := by
  intro fuel
  induction fuel with
  | zero =>
    intro path q hq
    simp only [enumPaths, List.mem_singleton] at hq
    exact ⟨[], by simp [hq]⟩
  | succ fuel ih =>
    intro path q hq
    simp only [enumPaths, List.mem_cons, List.mem_flatMap] at hq
    rcases hq with rfl | ⟨next, hn, hq⟩
    · exact ⟨[], by simp⟩
    · cases hc : (nr && decide (next ∈ path)) with
      | true => simp [hc] at hq
      | false =>
        simp only [hc, Bool.false_eq_true, if_false] at hq
        obtain ⟨t, rfl⟩ := ih (path ++ [next]) q hq
        exact ⟨next :: t, by simp⟩

/-- Characterization of the enumerated sequences: from node `path` (whose
entries are pairwise distinct whenever no-repeat is on), the traversal
enumerates exactly the extensions of `path` by at most `fuel` further pool
indices which, under no-repeat, keep the whole sequence duplicate-free. -/
lemma mem_enumPaths (n : Nat) (nr : Bool) :
    ∀ (fuel : Nat) (path : List Nat), (nr = true → path.Nodup) →
      ∀ q : List Nat, (q ∈ enumPaths n nr fuel path ↔
        ∃ t, q = path ++ t ∧ t.length ≤ fuel ∧ (∀ j ∈ t, j < n) ∧
          (nr = true → (path ++ t).Nodup)) := by
  intro fuel
  induction fuel with
  | zero =>
    intro path hnd q
    simp only [enumPaths, List.mem_singleton]
    constructor
    · rintro rfl
      exact ⟨[], by simp, by simp, by simp, fun h => by simpa using hnd h⟩
    · rintro ⟨t, rfl, hlen, -, -⟩
      have ht : t = [] := List.length_eq_zero.mp (Nat.le_zero.mp hlen)
      simp [ht]
  | succ fuel ih =>
    intro path hnd q
    simp only [enumPaths, List.mem_cons, List.mem_flatMap, List.mem_range]
    constructor
    · rintro (rfl | ⟨next, hn, hq⟩)
      · exact ⟨[], by simp, by simp, by simp, fun h => by simpa using hnd h⟩
      · cases hc : (nr && decide (next ∈ path)) with
        | true => simp [hc] at hq
        | false =>
          simp only [hc, Bool.false_eq_true, if_false] at hq
          have hnd' : nr = true → (path ++ [next]).Nodup := by
            intro hnr
            rw [hnr, Bool.true_and] at hc
            have hnm : next ∉ path := of_decide_eq_false hc
            rw [List.nodup_append]
            exact ⟨hnd hnr, List.nodup_singleton next, fun a ha hb => by
              simp only [List.mem_singleton] at hb
              exact hnm (hb ▸ ha)⟩
          obtain ⟨t, rfl, hlen, hjs, hnodup⟩ := (ih (path ++ [next]) hnd' q).mp hq
          refine ⟨next :: t, by simp, by simpa using hlen, ?_, ?_⟩
          · intro j hj
            rcases List.mem_cons.mp hj with rfl | hj2
            · exact hn
            · exact hjs j hj2
          · intro h
            have := hnodup h
            simpa [List.append_assoc] using this
    · rintro ⟨t, rfl, hlen, hjs, hnodup⟩
      cases t with
      | nil => left; simp
      | cons next t =>
        right
        refine ⟨next, hjs next (by simp), ?_⟩
        have hcond : (nr && decide (next ∈ path)) = false := by
          cases hnr2 : nr with
          | false => simp
          | true =>
            have hnd2 := hnodup hnr2
            rw [List.nodup_append] at hnd2
            have hnm : next ∉ path := fun hmem => hnd2.2.2 hmem (by simp)
            simp [hnm]
        simp only [hcond, Bool.false_eq_true, if_false]
        have hnd' : nr = true → (path ++ [next]).Nodup := by
          intro hnr
          have := hnodup hnr
          rw [show path ++ next :: t = (path ++ [next]) ++ t by simp] at this
          exact this.of_append_left
        apply (ih (path ++ [next]) hnd' (path ++ next :: t)).mpr
        refine ⟨t, by simp, by simpa using hlen, fun j hj => hjs j (by simp [hj]), ?_⟩
        intro h
        have := hnodup h
        simpa [List.append_assoc] using this

lemma pathLt_append (l : List Nat) (x : Nat) (t : List Nat) : PathLt l (l ++ x :: t) := by
  induction l with
  | nil => exact PathLt.nil x t
  | cons a l ih => exact PathLt.tail a _ _ ih

lemma pathLt_of_head_lt (l t1 t2 : List Nat) (a b : Nat) (h : a < b) :
    PathLt (l ++ a :: t1) (l ++ b :: t2) := by
  induction l with
  | nil => exact PathLt.head a b t1 t2 h
  | cons c l ih => exact PathLt.tail c _ _ ih

lemma pathLt_ne {q r : List Nat} (h : PathLt q r) : q ≠ r := by
  induction h with
  | nil b t => simp
  | head a b t1 t2 hab =>
    intro he
    rw [List.cons.injEq] at he
    omega
  | tail a t1 t2 h ih =>
    intro he
    rw [List.cons.injEq] at he
    exact ih he.2

lemma pairwise_flatMap {α β : Type} {R : β → β → Prop} {l : List α} {f : α → List β}
    (h1 : l.Pairwise (fun a b => ∀ x ∈ f a, ∀ y ∈ f b, R x y))
    (h2 : ∀ a ∈ l, (f a).Pairwise R) : (l.flatMap f).Pairwise R := by
  induction l with
  | nil => simp
  | cons a t ih =>
    simp only [List.flatMap_cons]
    rw [List.pairwise_append]
    rw [List.pairwise_cons] at h1
    refine ⟨h2 a (by simp), ih h1.2 (fun b hb => h2 b (by simp [hb])), ?_⟩
    intro x hx y hy
    rw [List.mem_flatMap] at hy
    obtain ⟨b, hb, hyb⟩ := hy
    exact h1.1 b hb x hx y hyb

/-- Sequences are enumerated in strictly increasing depth-first order: each
node's own sequence first, then the subtrees of the next indices in pool
order. -/
lemma pairwise_enumPaths (n : Nat) (nr : Bool) :
    ∀ (fuel : Nat) (path : List Nat), (enumPaths n nr fuel path).Pairwise PathLt := by
  intro fuel
  induction fuel with
  | zero => intro path; simp [enumPaths]
  | succ fuel ih =>
    intro path
    simp only [enumPaths]
    rw [List.pairwise_cons]
    constructor
    · intro q hq
      rw [List.mem_flatMap] at hq
      obtain ⟨next, hn, hq⟩ := hq
      cases hc : (nr && decide (next ∈ path)) with
      | true => simp [hc] at hq
      | false =>
        simp only [hc, Bool.false_eq_true, if_false] at hq
        obtain ⟨t, rfl⟩ := shape_enumPaths n nr fuel (path ++ [next]) q hq
        rw [show (path ++ [next]) ++ t = path ++ next :: t by simp]
        exact pathLt_append path next t
    · apply pairwise_flatMap
      · have hr := List.pairwise_lt_range n
        refine hr.imp ?_
        intro a b hab x hx y hy
        have hxs : ∃ t, x = (path ++ [a]) ++ t := by
          cases hc : (nr && decide (a ∈ path)) with
          | true => simp [hc] at hx
          | false =>
            simp only [hc, Bool.false_eq_true, if_false] at hx
            exact shape_enumPaths n nr fuel (path ++ [a]) x hx
        have hys : ∃ t, y = (path ++ [b]) ++ t := by
          cases hc : (nr && decide (b ∈ path)) with
          | true => simp [hc] at hy
          | false =>
            simp only [hc, Bool.false_eq_true, if_false] at hy
            exact shape_enumPaths n nr fuel (path ++ [b]) y hy
        obtain ⟨t1, rfl⟩ := hxs
        obtain ⟨t2, rfl⟩ := hys
        rw [show (path ++ [a]) ++ t1 = path ++ a :: t1 by simp,
          show (path ++ [b]) ++ t2 = path ++ b :: t2 by simp]
        exact pathLt_of_head_lt path t1 t2 a b hab
      · intro a ha
        cases hc : (nr && decide (a ∈ path)) with
        | true => simp [hc]
        | false => simp only [hc, Bool.false_eq_true, if_false]; exact ih (path ++ [a])

/-- No sequence is enumerated twice within one task. -/
lemma nodup_enumPaths (n : Nat) (nr : Bool) (fuel : Nat) (path : List Nat) :
    (enumPaths n nr fuel path).Nodup :=
  (pairwise_enumPaths n nr fuel path).imp (fun h => pathLt_ne h)

/-- Claim-style membership for one task's sequences: a sequence is enumerated
by the task of `start` exactly when it begins with `start`, has length between
1 and the start token's depth bound, draws its later elements from the pool,
and — when no-repeat is on — has pairwise distinct entries. -/
lemma mem_taskPaths {p : PermCfg} (hwf : p.WF) {start : Nat}
    (hs : start < p.allItems.length) (q : List Nat) :
    q ∈ p.taskPaths start ↔
      (q.head? = some start ∧ 1 ≤ q.length ∧ q.length ≤ p.maxDepthOf start ∧
        (∀ j ∈ q.tail, j < p.allItems.length) ∧
        (p.noRepeats = true → q.Nodup)) := by
  have hm := maxDepthOf_pos hwf hs
  unfold PermCfg.taskPaths
  rw [mem_enumPaths p.allItems.length p.noRepeats _ [start]
    (fun _ => List.nodup_singleton start) q]
  constructor
  · rintro ⟨t, rfl, hlen, hjs, hnd⟩
    refine ⟨by simp, by simp, ?_, by simpa using hjs, fun h => by simpa using hnd h⟩
    simp only [List.singleton_append, List.length_cons]
    omega
  · rintro ⟨hhead, hlen1, hlenm, hjs, hnd⟩
    cases q with
    | nil => simp at hhead
    | cons a t =>
      have ha : a = start := by simpa using hhead
      subst ha
      refine ⟨t, by simp, ?_, by simpa using hjs, fun h => by simpa using hnd h⟩
      simp only [List.length_cons] at hlenm
      omega

/-- Folding the sequential builder's loop body over enumerated entries whose
indices are all positive always takes the write-the-separator-first branch. -/
lemma seqFold_pos (p : PermCfg) (sep : String) :
    ∀ (l : List (Nat × Nat)) (b : String), (∀ ji ∈ l, 0 < ji.1) →
      l.foldl (fun b ji => (if 0 < ji.1 then b ++ sep else b) ++ p.allItems.getD ji.2 "") b
        = (l.map Prod.snd).foldl (fun b i => b ++ sep ++ p.allItems.getD i "") b := by
  intro l
  induction l with
  | nil => intro b _; rfl
  | cons a t ih =>
    intro b h
    simp only [List.foldl_cons, List.map_cons]
    rw [if_pos (h a (by simp))]
    exact ih _ (fun ji hji => h ji (by simp [hji]))

/-- Both engines build the same emission string for the same sequence and
separator. -/
lemma seqBuildLine_eq (p : PermCfg) (sep : String) (path : List Nat) :
    seqBuildLine p sep path = buildLine p sep path := by
  cases path with
  | nil => rfl
  | cons first rest =>
    unfold seqBuildLine buildLine
    rw [List.enum_cons, List.foldl_cons]
    rw [if_neg (by omega)]
    rw [seqFold_pos p sep _ _ (fun ji hji => by
      have := List.le_fst_of_mem_enumFrom hji
      omega)]
    rw [List.enumFrom_map_snd]

/-- The two traversals agree node for node: the only differences are the
sequential emission guard `depth <= maxDepth` (always true on reachable
nodes) and the builder (equal by seqBuildLine_eq). -/
lemma seqDfs_eq_dfs (p : PermCfg) (m : Nat) :
    ∀ (fuel : Nat) (path : List Nat) (used : List Bool),
      path ≠ [] → path.length + fuel = m →
      p.seqDfs m fuel path used = p.dfs m fuel path used := by
  intro fuel
  induction fuel with
  | zero =>
    intro path used hne hfuel
    have h1 : 1 ≤ path.length := List.length_pos.mpr hne
    have h2 : path.length ≤ m := by omega
    have h3 : path.length = m := by omega
    simp only [PermCfg.seqDfs, PermCfg.dfs]
    rw [if_pos h3, if_pos h3, if_pos ⟨h1, h2⟩, if_pos h1]
    simp only [seqBuildLine_eq]
  | succ fuel ih =>
    intro path used hne hfuel
    have h1 : 1 ≤ path.length := List.length_pos.mpr hne
    have h2 : path.length ≤ m := by omega
    have hne' : ¬ (path.length = m) := by omega
    simp only [PermCfg.seqDfs, PermCfg.dfs]
    rw [if_neg hne', if_neg hne', if_pos ⟨h1, h2⟩, if_pos h1]
    simp only [seqBuildLine_eq]
    congr 1
    apply flatMap_congr
    intro next hn
    cases hc : (p.noRepeats &&
        (if p.noRepeats then used.set (path.getLastD 0) true else used).getD next false) with
    | true => rfl
    | false =>
      apply ih
      · simp
      · simp; omega

/-- One start index contributes the same lines in both engines. -/
lemma seqTaskLines_eq {p : PermCfg} (hwf : p.WF) {start : Nat}
    (hs : start < p.allItems.length) :
    p.seqTaskLines start = p.taskLines start := by
  have hm := maxDepthOf_pos hwf hs
  unfold PermCfg.seqTaskLines PermCfg.taskLines
  apply seqDfs_eq_dfs
  · simp
  · simp; omega

/-- The sequential engine and the concurrent engine produce the same canonical
line list. -/
lemma seqGenerateLines_eq {p : PermCfg} (hwf : p.WF) :
    p.seqGenerateLines = p.GenerateLines := by
  unfold PermCfg.seqGenerateLines PermCfg.GenerateLines
  apply flatMap_congr
  intro i hi
  exact seqTaskLines_eq hwf (List.mem_range.mp hi)

/-! Closed forms for the counter's accumulation loops. -/

lemma foldl_mul_range (f : Nat → Int) :
    ∀ (k : Nat) (c : Int),
      (List.range k).foldl (fun res i => res * f i) c = c * ∏ i in Finset.range k, f i := by
  intro k
  induction k with
  | zero => intro c; simp
  | succ k ih =>
    intro c
    rw [List.range_succ, List.foldl_append, ih, Finset.prod_range_succ]
    simp only [List.foldl_cons, List.foldl_nil]
    ring

lemma foldl_add_range (g : Nat → Int) :
    ∀ (k : Nat) (c : Int),
      (List.range k).foldl (fun tot i => tot + g i) c = c + ∑ i in Finset.range k, g i := by
  intro k
  induction k with
  | zero => intro c; simp
  | succ k ih =>
    intro c
    rw [List.range_succ, List.foldl_append, ih, Finset.sum_range_succ]
    simp only [List.foldl_cons, List.foldl_nil]
    ring

/-- Go's `perm` helper computes the falling factorial, with the same
out-of-range cutoff as `Nat.descFactorial`. -/
lemma permBig_eq_descFactorial (a b : Nat) :
    permBig (a : Int) (b : Int) = (a.descFactorial b : Int) := by
  unfold permBig
  by_cases hab : a < b
  · rw [if_pos (Or.inr (Or.inr (by exact_mod_cast hab)))]
    rw [Nat.descFactorial_eq_zero_iff_lt.mpr hab]
    rfl
  · rw [if_neg (by push_neg; refine ⟨by positivity, by positivity, by exact_mod_cast Nat.le_of_not_lt hab⟩)]
    rw [foldl_mul_range, one_mul, Int.toNat_natCast, Nat.descFactorial_eq_prod_range]
    rw [Nat.cast_prod]
    apply Finset.prod_congr rfl
    intro i hi
    have hia : i ≤ a := le_trans (Nat.le_of_lt (Finset.mem_range.mp hi)) (Nat.le_of_not_lt hab)
    rw [Nat.cast_sub hia]

/-- Go's `pow` helper computes the power function. -/
lemma powBig_eq_pow (a b : Nat) :
    powBig (a : Int) (b : Int) = (a : Int) ^ b := by
  unfold powBig
  rw [if_neg (by push_neg; exact ⟨by positivity, by positivity⟩)]
  rw [foldl_mul_range (fun _ => (a : Int)), one_mul, Int.toNat_natCast]
  rw [Finset.prod_const, Finset.card_range]

lemma foldl_fn_congr {α β : Type} (l : List α) (f g : β → α → β) (c : β)
    (h : ∀ b x, x ∈ l → f b x = g b x) : l.foldl f c = l.foldl g c := by
  induction l generalizing c with
  | nil => rfl
  | cons a t ih =>
    simp only [List.foldl_cons]
    rw [h c a (by simp)]
    exact ih _ (fun b x hx => h b x (by simp [hx]))

lemma intercalate_go_foldl (s : String) :
    ∀ (l : List String) (acc : String),
      String.intercalate.go acc s l = l.foldl (fun b x => b ++ s ++ x) acc := by
  intro l
  induction l with
  | nil => intro acc; rfl
  | cons a t ih =>
    intro acc
    rw [show String.intercalate.go acc s (a :: t)
        = String.intercalate.go (acc ++ s ++ a) s t from rfl, ih, List.foldl_cons]

lemma foldl_pull_append (sep : String) (item : Nat → String) :
    ∀ (l : List Nat) (a b : String),
      l.foldl (fun acc i => acc ++ sep ++ item i) (a ++ b)
        = a ++ l.foldl (fun acc i => acc ++ sep ++ item i) b := by
  intro l
  induction l with
  | nil => intro a b; rfl
  | cons x t ih =>
    intro a b
    simp only [List.foldl_cons]
    rw [String.append_assoc a b sep, String.append_assoc a (b ++ sep) (item x)]
    exact ih a _

/-- The loop inside the fast builder computes separator-joined concatenation. -/
lemma buildLine_intercalate (p : PermCfg) (sep : String) (first : Nat) (rest : List Nat) :
    buildLine p sep (first :: rest) =
      p.pfx ++
        String.intercalate sep ((first :: rest).map (fun i => p.allItems.getD i "")) ++
        p.sfx := by
  rw [show buildLine p sep (first :: rest)
      = (rest.foldl (fun b i => b ++ sep ++ p.allItems.getD i "")
          (p.pfx ++ p.allItems.getD first "")) ++ p.sfx from rfl]
  rw [foldl_pull_append, List.map_cons,
    show String.intercalate sep
        ((p.allItems.getD first "") :: rest.map (fun i => p.allItems.getD i ""))
      = String.intercalate.go (p.allItems.getD first "") sep
          (rest.map (fun i => p.allItems.getD i "")) from rfl,
    intercalate_go_foldl, List.foldl_map]

/-- Removing the head of the i-th block of a nested list permutes its
flattening by extracting that element to the front. -/
lemma flatten_set_perm {α : Type} :
    ∀ (l : List (List α)) (i : Nat) (x : α) (rest : List α),
      l.getD i [] = x :: rest → List.Perm l.flatten (x :: (l.set i rest).flatten) := by
  intro l
  induction l with
  | nil => intro i x rest h; simp at h
  | cons a t ih =>
    intro i x rest h
    cases i with
    | zero =>
      simp only [List.getD_cons_zero] at h
      subst h
      simp
    | succ i =>
      simp only [List.getD_cons_succ] at h
      have hp := ih i x rest h
      simp only [List.set_cons_succ, List.flatten_cons]
      exact (List.Perm.append_left a hp).trans List.perm_middle

lemma linesOut_snoc (order : List String) (s : String) :
    linesOut (order ++ [s]) = linesOut order ++ s ++ "\n" := by
  unfold linesOut
  rw [List.foldl_append]
  rfl

/-- Invariant of the Output Sink's transition system: the stream written so far
is the clean concatenation of the already-terminated emissions (in completion
order) followed by the current lock holder's partial line, and no emission has
been lost or duplicated. -/
lemma sink_invariant (tasks : List (List String)) :
    ∀ σ : SinkState, SinkReach tasks σ →
      ∃ order : List String,
        σ.out = linesOut order ++ (match σ.writing with | some x => x.2 | none => "") ∧
        List.Perm (order ++ σ.pending.flatten) tasks.flatten := by
  intro σ h
  induction h with
  | init => exact ⟨[], by simp [initSink, linesOut], by simp [initSink]⟩
  | step σ1 σ2 hr hstep ih =>
    obtain ⟨order, hout, hperm⟩ := ih
    cases hstep with
    | start i s rest hw hp =>
      refine ⟨order, ?_, by simpa using hperm⟩
      rw [hw] at hout
      simp only [] at hout
      show σ1.out ++ s = linesOut order ++ s
      rw [show (linesOut order ++ match (none : Option (Nat × String)) with
          | some x => x.2 | none => "") = linesOut order ++ "" from rfl] at hout
      rw [hout]
      simp [String.append_assoc]
    | finish i s rest hw hp =>
      refine ⟨order ++ [s], ?_, ?_⟩
      · rw [hw] at hout
        rw [show (linesOut order ++ match (some (i, s) : Option (Nat × String)) with
            | some x => x.2 | none => "") = linesOut order ++ s from rfl] at hout
        show σ1.out ++ "\n" = linesOut (order ++ [s]) ++ ""
        rw [hout, linesOut_snoc]
        simp [String.append_assoc]
      · have hflat := flatten_set_perm σ1.pending i s rest hp
        show List.Perm ((order ++ [s]) ++ (σ1.pending.set i rest).flatten) tasks.flatten
        rw [show (order ++ [s]) ++ (σ1.pending.set i rest).flatten
            = order ++ (s :: (σ1.pending.set i rest).flatten) by simp]
        exact (List.Perm.append_left order hflat.symm).trans hperm

/-! Claim theorems. -/

/-- C1: the Counter does not match the Enumeration Engine on every valid
configuration.  For one source holding the two tokens a, b at depth 2, one
empty separator and no-repeat off, the engine emits the 6 lines a, aa, ab, b,
ba, bb while CalculateOutputLines returns 4: its with-repeat branch counts
`(N-1)^(L-1)` continuations per start although the traversal's inner loop
offers all N pool indices as the next element.  This contradicts the
function's own documentation ("returns the number of output lines"). -/
theorem counter_engine_disagree_on_repeats :
    RunPermutatorFastLines [("pair.txt", ["a", "b"])] [("pair.txt", 2)] [""] "" "" false
      = Except.ok ["a", "aa", "ab", "b", "ba", "bb"] ∧
    CalculateOutputLines [("pair.txt", ["a", "b"])] [("pair.txt", 2)] [""] false
      = Except.ok 4 :=
  ⟨rfl, rfl⟩

/-- C2: for every pool index `start`, the traversal task spawned for `start`
enumerates exactly the sequences that begin with `start`, have length between
1 and `MaxDepth(source(start))`, and continue with arbitrary pool indices —
pairwise distinct when no-repeat is on — each such sequence exactly once, and
it emits exactly one line per sequence per separator, blocks in enumeration
order and separators in Separator Set order. -/
theorem engine_enumeration_contract (p : PermCfg) (hwf : p.WF) (start : Nat)
    (hs : start < p.allItems.length) :
    (∀ q : List Nat, q ∈ p.taskPaths start ↔
      (q.head? = some start ∧ 1 ≤ q.length ∧ q.length ≤ p.maxDepthOf start ∧
        (∀ j ∈ q.tail, j < p.allItems.length) ∧
        (p.noRepeats = true → q.Nodup))) ∧
    (p.taskPaths start).Nodup ∧
    p.taskLines start =
      (p.taskPaths start).flatMap (fun q => p.seps.map (fun sep => buildLine p sep q)) :=
  ⟨fun q => mem_taskPaths hwf hs q,
   nodup_enumPaths _ _ _ _,
   taskLines_eq_taskPaths hwf hs⟩

/-- C2 witness: in Scenario A, the task for x enumerates the cross-source
sequence x-z and emits exactly the lines x, x-y, x-z. -/
theorem engine_enumeration_contract_witness :
    [0, 2] ∈ cfgScenarioA.taskPaths 0 ∧
    cfgScenarioA.taskLines 0 = ["x", "x-y", "x-z"] := by
  have h := engine_enumeration_contract cfgScenarioA (by decide) 0 (by decide)
  refine ⟨(h.1 [0, 2]).mpr (by decide), ?_⟩
  rw [h.2.2]
  decide

/-- C3: every emitted sequence has length between 1 and the depth of the
source owning its first token, regardless of the sources of later tokens. -/
theorem depth_bound_invariant (p : PermCfg) (hwf : p.WF) :
    ∀ start, start < p.allItems.length →
      ∀ q ∈ p.taskPaths start, 1 ≤ q.length ∧ q.length ≤ p.maxDepthOf (q.headD 0) := by
  intro start hs q hq
  obtain ⟨hhead, h1, h2, -, -⟩ := (mem_taskPaths hwf hs q).mp hq
  cases q with
  | nil => simp at hhead
  | cons a t =>
    have ha : a = start := by simpa using hhead
    subst ha
    exact ⟨h1, by simpa using h2⟩

/-- C3 witness: Scenario A's sequence x-z (indices 0, 2) is within bounds
because the bound comes from x's source of depth 2, not z's of depth 1. -/
theorem depth_bound_invariant_witness :
    1 ≤ ([0, 2] : List Nat).length ∧
    ([0, 2] : List Nat).length ≤ cfgScenarioA.maxDepthOf (([0, 2] : List Nat).headD 0) :=
  depth_bound_invariant cfgScenarioA (by decide) 0 (by decide) [0, 2] (by decide)

/-- C4: with no-repeat enabled, no enumerated sequence of any task contains
the same pool index twice. -/
theorem no_repeat_invariant (p : PermCfg) (hwf : p.WF) (hnr : p.noRepeats = true) :
    ∀ start, start < p.allItems.length → ∀ q ∈ p.taskPaths start, q.Nodup := by
  intro start hs q hq
  exact ((mem_taskPaths hwf hs q).mp hq).2.2.2.2 hnr

/-- C4 witness: Scenario A runs with no-repeat on, and its enumerated
sequence x-y has distinct indices. -/
theorem no_repeat_invariant_witness :
    [0, 1] ∈ cfgScenarioA.taskPaths 0 ∧ ([0, 1] : List Nat).Nodup :=
  ⟨by decide, no_repeat_invariant cfgScenarioA (by decide) rfl 0 (by decide) [0, 1] (by decide)⟩

/-- C5: the Counter computes, without traversing, the sum over every start
index i and every length L from 1 to MaxDepth(source(i)) of S times the
per-length count: the falling factorial (N-1)(N-2)...(N-L+1) under no-repeat
(0 as soon as L-1 exceeds N-1, which is Nat.descFactorial's cutoff) and
(N-1)^(L-1) with repeats; the summation variable l below stands for L-1.  The
total is 0 whenever the pool or the separator list is empty.  The Go code
accumulates in big.Int, modelled by unbounded Int. -/
theorem counter_closed_form (items : List String) (srcOf depths : List Nat)
    (seps : List String) (nr : Bool) :
    calcOutputLines items srcOf depths seps nr =
      (∑ i in Finset.range items.length,
        ∑ l in Finset.range (depths.getD (srcOf.getD i 0) 0),
          (seps.length : Int) *
            (if nr then (((items.length - 1).descFactorial l : Nat) : Int)
             else (((items.length - 1 : Nat) : Int)) ^ l)) ∧
    (items.length = 0 ∨ seps.length = 0 →
      calcOutputLines items srcOf depths seps nr = 0) := by
  have hmain : calcOutputLines items srcOf depths seps nr =
      (∑ i in Finset.range items.length,
        ∑ l in Finset.range (depths.getD (srcOf.getD i 0) 0),
          (seps.length : Int) *
            (if nr then (((items.length - 1).descFactorial l : Nat) : Int)
             else (((items.length - 1 : Nat) : Int)) ^ l)) := by
    simp only [calcOutputLines]
    by_cases h : items.length = 0 ∨ seps.length = 0
    · rw [if_pos h]
      rcases h with h0 | h0
      · rw [h0]; simp
      · rw [h0]; simp
    · rw [if_neg h]
      push_neg at h
      have hn1 : 1 ≤ items.length := Nat.one_le_iff_ne_zero.mpr h.1
      have hcast : ((items.length : Int) - 1) = (((items.length - 1 : Nat)) : Int) := by
        rw [Nat.cast_sub hn1, Nat.cast_one]
      have hcong : ∀ (b : Int) (i : Nat), i ∈ List.range items.length →
          (List.range (depths.getD (srcOf.getD i 0) 0)).foldl
            (fun (tot : Int) (l : Nat) => tot +
              (if nr then permBig ((items.length : Int) - 1) (l : Int)
               else powBig ((items.length : Int) - 1) (l : Int)) * (seps.length : Int)) b
          = b + ∑ l in Finset.range (depths.getD (srcOf.getD i 0) 0),
              (seps.length : Int) *
                (if nr then (((items.length - 1).descFactorial l : Nat) : Int)
                 else (((items.length - 1 : Nat) : Int)) ^ l) := by
        intro b i _
        rw [foldl_add_range]
        congr 1
        apply Finset.sum_congr rfl
        intro l _
        rw [mul_comm]
        congr 1
        cases nr with
        | true =>
          rw [if_pos rfl, if_pos rfl, hcast]
          exact permBig_eq_descFactorial (items.length - 1) l
        | false =>
          rw [if_neg Bool.false_ne_true, if_neg Bool.false_ne_true, hcast]
          exact powBig_eq_pow (items.length - 1) l
      rw [foldl_fn_congr (List.range items.length) _ _ 0 hcong, foldl_add_range, zero_add]
  refine ⟨hmain, fun h => ?_⟩
  rw [hmain]
  rcases h with h0 | h0
  · rw [h0]; simp
  · rw [h0]; simp

/-- C5 witness: Scenario B — three tokens, all depth 1, one separator,
repeats allowed — counts to exactly 3. -/
theorem counter_closed_form_witness :
    calcOutputLines ["a", "b", "c"] [0, 0, 0] [1] [""] false = 3 := by
  have h := (counter_closed_form ["a", "b", "c"] [0, 0, 0] [1] [""] false).1
  rw [h]
  decide

/-- C6: the process exits 0 on success or help and 1 on every configuration
error — a malformed source specification, a non-positive depth, or no source
given at all — and on every I/O error (unreadable source file); the error is
reported on standard error, and no output line is produced before such an
error aborts the run.  sourceArgSet (sourceArgs.Set) rejects a specification
without a colon, with a non-numeric depth, and with a depth below 1. -/
theorem cli_exit_codes (fs : FileSys) (raw rawSeps : List String) (pfx sfx : String)
    (nr co hp : Bool) :
    ((mainRun fs raw rawSeps pfx sfx nr co hp).exitCode = 0 ∨
      (mainRun fs raw rawSeps pfx sfx nr co hp).exitCode = 1) ∧
    ((mainRun fs raw rawSeps pfx sfx nr co hp).exitCode = 1 →
      (mainRun fs raw rawSeps pfx sfx nr co hp).stdoutLines = [] ∧
      (mainRun fs raw rawSeps pfx sfx nr co hp).stderrLines ≠ []) ∧
    (∀ e, parseSourceSpecs raw = Except.error e →
      mainRun fs raw rawSeps pfx sfx nr co hp = ⟨1, [], false, [e]⟩) ∧
    (∀ srcs, parseSourceSpecs raw = Except.ok srcs → hp = true →
      (mainRun fs raw rawSeps pfx sfx nr co hp).exitCode = 0) ∧
    (∀ srcs, parseSourceSpecs raw = Except.ok srcs → hp = false → srcs = [] →
      (mainRun fs raw rawSeps pfx sfx nr co hp).exitCode = 1 ∧
      (mainRun fs raw rawSeps pfx sfx nr co hp).stdoutLines = [] ∧
      (mainRun fs raw rawSeps pfx sfx nr co hp).stderrLines ≠ []) ∧
    (∀ srcs e, parseSourceSpecs raw = Except.ok srcs → hp = false → srcs ≠ [] →
      loadPool fs (srcs.map (fun sa => (sa.1, sa.2.toNat))) = Except.error e →
      (mainRun fs raw rawSeps pfx sfx nr co hp).exitCode = 1 ∧
      (mainRun fs raw rawSeps pfx sfx nr co hp).stdoutLines = [] ∧
      (mainRun fs raw rawSeps pfx sfx nr co hp).stderrLines = [e]) ∧
    (∀ srcs pool, parseSourceSpecs raw = Except.ok srcs → hp = false → srcs ≠ [] →
      loadPool fs (srcs.map (fun sa => (sa.1, sa.2.toNat))) = Except.ok pool →
      (mainRun fs raw rawSeps pfx sfx nr co hp).exitCode = 0) ∧
    sourceArgSet "words.txt" = Except.error "source must be in format file:depth" ∧
    sourceArgSet "words.txt:0" = Except.error "invalid depth in source" ∧
    sourceArgSet "words.txt:oops" = Except.error "invalid depth in source" ∧
    sourceArgSet "words.txt:2" = Except.ok ("words.txt", 2) := by
  refine ⟨?_, ?_, ?_, ?_, ?_, ?_, ?_, rfl, rfl, rfl, rfl⟩
  · rcases hps : parseSourceSpecs raw with e | srcs
    · simp [mainRun, hps]
    · simp only [mainRun, hps]
      split
      · simp
      · split
        · simp
        · split
          · split <;> simp
          · split <;> simp
  · rcases hps : parseSourceSpecs raw with e | srcs
    · simp [mainRun, hps]
    · simp only [mainRun, hps]
      split
      · simp
      · split
        · simp
        · split
          · split <;> simp
          · split <;> simp
  · intro e hps
    simp [mainRun, hps]
  · intro srcs hps hhp
    simp [mainRun, hps, hhp]
  · intro srcs hps hhp hempty
    subst hempty
    simp [mainRun, hps, hhp]
  · intro srcs e hps hhp hne hload
    have hlen : ¬ (srcs.length = 0) := by simpa [List.length_eq_zero] using hne
    cases co with
    | true => simp [mainRun, hps, hhp, hlen, CalculateOutputLines, hload]
    | false => simp [mainRun, hps, hhp, hlen, RunPermutatorFastLines, hload]
  · intro srcs pool hps hhp hne hload
    have hlen : ¬ (srcs.length = 0) := by simpa [List.length_eq_zero] using hne
    cases co with
    | true => simp [mainRun, hps, hhp, hlen, CalculateOutputLines, hload]
    | false => simp [mainRun, hps, hhp, hlen, RunPermutatorFastLines, hload]

/-- C6 witness: a run over a readable two-token source exits 0, a source
specification without a depth field exits 1, and a run with no source at all
exits 1. -/
theorem cli_exit_codes_witness :
    (mainRun [("w.txt", ["a", "b"])] ["w.txt:2"] [] "" "" false true false).exitCode = 0 ∧
    (mainRun [("w.txt", ["a", "b"])] ["nodepth"] [] "" "" false false false).exitCode = 1 ∧
    (mainRun [("w.txt", ["a", "b"])] [] [] "" "" false false false).exitCode = 1 := by
  refine ⟨?_, ?_, ?_⟩
  · exact (cli_exit_codes [("w.txt", ["a", "b"])] ["w.txt:2"] [] "" "" false true false).2.2.2.2.2.2.1
      [("w.txt", 2)] ⟨["a", "b"], [0, 0], [2]⟩ rfl rfl (by decide) rfl
  · have h := (cli_exit_codes [("w.txt", ["a", "b"])] ["nodepth"] [] "" "" false false false).2.2.1
      "source must be in format file:depth" rfl
    rw [h]
  · exact ((cli_exit_codes [("w.txt", ["a", "b"])] [] [] "" "" false false false).2.2.2.2.1
      [] rfl rfl rfl).1

/-- C7: every emission is the prefix, the tokens of the sequence joined by the
chosen separator, and the suffix; in particular a single token foo at depth 1
with prefix PRE-, suffix -SUF and one empty separator yields exactly the line
PRE-foo-SUF. -/
theorem emission_format :
    (∀ (p : PermCfg) (sep : String) (first : Nat) (rest : List Nat),
      buildLine p sep (first :: rest) =
        p.pfx ++ String.intercalate sep ((first :: rest).map (fun i => p.allItems.getD i ""))
          ++ p.sfx) ∧
    PermCfg.GenerateLines ⟨["foo"], [0], [1], [""], "PRE-", "-SUF", false⟩ = ["PRE-foo-SUF"] :=
  ⟨buildLine_intercalate, by decide⟩

/-- C8: within one task, a completed sequence's lines appear as one block —
one line per separator in Separator Set order — and the task's sequences are
enumerated in strict depth-first pre-order (PathLt), so every sequence's block
comes before the blocks of all of its extensions and next indices are taken in
pool order; the sequential engine additionally visits start indices in pool
order, making its whole output follow that order. -/
theorem emission_order (p : PermCfg) (hwf : p.WF) :
    (∀ start, start < p.allItems.length →
      p.taskLines start =
        (p.taskPaths start).flatMap (fun q => p.seps.map (fun sep => buildLine p sep q)) ∧
      (p.taskPaths start).Pairwise PathLt) ∧
    ((List.range p.allItems.length).flatMap p.taskPaths).Pairwise PathLt ∧
    p.seqGenerateLines =
      ((List.range p.allItems.length).flatMap p.taskPaths).flatMap
        (fun q => p.seps.map (fun sep => buildLine p sep q)) := by
  refine ⟨fun start hs => ⟨taskLines_eq_taskPaths hwf hs, pairwise_enumPaths _ _ _ _⟩, ?_, ?_⟩
  · apply pairwise_flatMap
    · have hr := List.pairwise_lt_range p.allItems.length
      refine hr.imp ?_
      intro a b hab x hx y hy
      obtain ⟨t1, hx1⟩ := shape_enumPaths p.allItems.length p.noRepeats _ [a] x hx
      obtain ⟨t2, hy1⟩ := shape_enumPaths p.allItems.length p.noRepeats _ [b] y hy
      rw [hx1, hy1]
      exact PathLt.head a b t1 t2 hab
    · intro a _
      exact pairwise_enumPaths _ _ _ _
  · rw [seqGenerateLines_eq hwf]
    unfold PermCfg.GenerateLines
    rw [List.flatMap_assoc]
    apply flatMap_congr
    intro i hi
    exact taskLines_eq_taskPaths hwf (List.mem_range.mp hi)

/-- C8 witness: in Scenario A the sequential engine's full output is the
depth-first order x, x-y, x-z, y, y-x, y-z, z. -/
theorem emission_order_witness :
    cfgScenarioA.seqGenerateLines = ["x", "x-y", "x-z", "y", "y-x", "y-z", "z"] := by
  have h := emission_order cfgScenarioA (by decide)
  rw [h.2.2]
  decide

/-- C9: for the same pool, depths, separators, prefix, suffix and no-repeat
flag, the sequential engine and the concurrent engine produce the same
multiset of lines (in this model they agree line for line in the canonical
task order; the concurrent engine's cross-task interleaving permutes them). -/
theorem engines_agree (p : PermCfg) (hwf : p.WF) :
    List.Perm p.seqGenerateLines p.GenerateLines := by
  rw [seqGenerateLines_eq hwf]

/-- C9 witness: the two engines agree on Scenario A. -/
theorem engines_agree_witness :
    List.Perm cfgScenarioA.seqGenerateLines cfgScenarioA.GenerateLines :=
  engines_agree cfgScenarioA (by decide)

/-- C10: whatever order the scheduler interleaves the producers, once every
task has drained and nobody holds the writer lock, the output stream is the
concatenation of complete lines — each handed-over emission followed by
exactly one terminator, appearing exactly once (the completed emissions are a
permutation of all emissions handed to the sink), with no bytes of two
emissions interleaved inside a line. -/
theorem sink_serializes_lines (tasks : List (List String)) (σ : SinkState)
    (hr : SinkReach tasks σ) (hw : σ.writing = none)
    (hdone : ∀ q ∈ σ.pending, q = []) :
    ∃ order : List String,
      List.Perm order tasks.flatten ∧ σ.out = linesOut order := by
  obtain ⟨order, hout, hperm⟩ := sink_invariant tasks σ hr
  have hflat : σ.pending.flatten = [] := List.flatten_eq_nil_iff.mpr hdone
  refine ⟨order, ?_, ?_⟩
  · rw [hflat, List.append_nil] at hperm
    exact hperm
  · rw [hw] at hout
    rw [show (linesOut order ++ match (none : Option (Nat × String)) with
        | some x => x.2 | none => "") = linesOut order ++ "" from rfl] at hout
    simpa using hout

/-- C10 witness: a two-task schedule that writes hello then world reaches a
drained state whose stream is exactly the two terminated lines. -/
theorem sink_serializes_lines_witness :
    ∃ order : List String,
      List.Perm order (List.flatten [["hello"], ["world"]]) ∧
      "hello\nworld\n" = linesOut order := by
  have h1 : SinkReach [["hello"], ["world"]] (initSink [["hello"], ["world"]]) :=
    SinkReach.init
  have h2 := SinkReach.step _ _ h1
    (SinkStep.start (initSink [["hello"], ["world"]]) 0 "hello" [] rfl rfl)
  have h3 := SinkReach.step _ _ h2
    (SinkStep.finish ⟨[["hello"], ["world"]], some (0, "hello"), "" ++ "hello"⟩ 0 "hello" [] rfl rfl)
  have h4 := SinkReach.step _ _ h3
    (SinkStep.start ⟨[[], ["world"]], none, ("" ++ "hello") ++ "\n"⟩ 1 "world" [] rfl rfl)
  have h5 := SinkReach.step _ _ h4
    (SinkStep.finish ⟨[[], ["world"]], some (1, "world"), (("" ++ "hello") ++ "\n") ++ "world"⟩
      1 "world" [] rfl rfl)
  have h6 := sink_serializes_lines [["hello"], ["world"]] _ h5 rfl (by decide)
  have hstr : (((("" ++ "hello") ++ "\n") ++ "world") ++ "\n") = "hello\nworld\n" := by decide
  rw [hstr] at h6
  exact h6

end ListAlchemy
